import Mathlib

set_option maxRecDepth 8000

/- Verification development for the livefire change-watch core.

The Broadcast Coordinator is the Watcher of the watcher source file: a single
serialized loop owning a clock (field time, a uint64 modelled as Nat) and a
pending ticket list (field tix).  A channel send of a value v on the result
channel of a ticket is modelled as an explicit reply pair (ticket id, v)
collected in an output list, preserving send order.  The os.Stat call in
reportEvent is modelled by passing its outcome as an Option Nat: none for a
stat failure (logged and ignored by the code) and some ts for a successful
stat whose modification time computes to ts.

The Path Stalker of the stalk source file is modelled with filesystem paths
as a flag for absoluteness plus a list of components, the registry map
req as an association list from path to Bool, and each fs.Watch invocation
recorded in order in the watchCalls list.  Sends on the output channel ch
are recorded in order in the out list. -/

/-- A pending wait request, from the Ticket type of the source: the baseline
time supplied by the caller plus an identifier standing for the identity of
the single-use result channel. -/
structure Ticket where
  time : Nat
  id : Nat
deriving DecidableEq

/-- The Coordinator state, from the Watcher type of the source: the clock
time and the pending ticket list tix. -/
structure Watcher where
  time : Nat
  tix : List Ticket
deriving DecidableEq

/-- Embedding of Watcher.acceptTicket: if the baseline is strictly below the
clock, reply immediately with the clock value; otherwise append the ticket to
the pending list and send nothing. -/
def Watcher.acceptTicket (w : Watcher) (t : Ticket) : Watcher × List (Nat × Nat) :=
  if t.time < w.time then (w, [(t.id, w.time)])
  else ({ w with tix := w.tix ++ [t] }, [])

/-- Embedding of Watcher.reportEvent after the os.Stat call: stat = none is a
stat failure (logged, nothing else happens); stat = some ts is a successful
stat computing timestamp ts.  A ts strictly below the clock is ignored
entirely; otherwise the clock becomes ts, every pending ticket is sent ts in
order, and the pending list is cleared. -/
def Watcher.reportEvent (w : Watcher) (stat : Option Nat) : Watcher × List (Nat × Nat) :=
  match stat with
  | none => (w, [])
  | some ts =>
    if ts < w.time then (w, [])
    else ({ time := ts, tix := [] }, w.tix.map (fun t => (t.id, ts)))

/-- Number of replies delivered to the result channel with identity i. -/
def countReplies (i : Nat) (rs : List (Nat × Nat)) : Nat :=
  rs.countP (fun r => r.1 == i)

/-- Number of pending tickets whose result channel has identity i. -/
def countTix (i : Nat) (l : List Ticket) : Nat :=
  l.countP (fun t => t.id == i)

theorem countP_beq_eq_one_of_nodup {α : Type} [DecidableEq α] (l : List α) (a : α)
    (hn : l.Nodup) (ha : a ∈ l) : l.countP (fun x => x == a) = 1 := by
  have h := List.count_eq_one_of_mem hn ha
  simpa [List.count] using h

/-- C3: Immediate-return.  A Wait request with baseline strictly below the
clock is answered synchronously with the clock value and the state is
unchanged, so the caller never suspends; otherwise, including the case of a
baseline equal to the clock, the ticket is appended to the pending list and
no reply is sent, so the caller suspends until the ticket is satisfied. -/
theorem wait_immediate_return (w : Watcher) (t : Ticket) :
    (t.time < w.time → w.acceptTicket t = (w, [(t.id, w.time)])) ∧
    (w.time ≤ t.time → w.acceptTicket t = ({ w with tix := w.tix ++ [t] }, [])) := by
  constructor
  · intro h
    simp [Watcher.acceptTicket, h]
  · intro h
    simp [Watcher.acceptTicket, Nat.not_lt.mpr h]

theorem wait_immediate_return_witness :
    Watcher.acceptTicket ⟨5, []⟩ ⟨3, 0⟩ = (⟨5, []⟩, [(0, 5)]) ∧
    Watcher.acceptTicket ⟨5, []⟩ ⟨5, 1⟩ = (⟨5, [⟨5, 1⟩]⟩, []) :=
  ⟨(wait_immediate_return ⟨5, []⟩ ⟨3, 0⟩).1 (by decide),
   (wait_immediate_return ⟨5, []⟩ ⟨5, 1⟩).2 (by decide)⟩

/-- C5: Stale-event no-op.  An event whose computed timestamp is strictly
below the current clock is ignored entirely: the state, clock and pending
list included, is unchanged and no reply is sent. -/
theorem stale_event_noop (w : Watcher) (ts : Nat) (h : ts < w.time) :
    w.reportEvent (some ts) = (w, []) := by
  simp [Watcher.reportEvent, h]

theorem stale_event_noop_witness :
    Watcher.reportEvent ⟨5, [⟨5, 0⟩]⟩ (some 3) = (⟨5, [⟨5, 0⟩]⟩, []) :=
  stale_event_noop ⟨5, [⟨5, 0⟩]⟩ 3 (by decide)

/-- C1: Barrier release.  When a qualifying event is processed, with computed
timestamp ts at least the clock, the clock becomes ts, the pending list is
empty afterwards, the replies sent are exactly one per pending ticket carrying
the new clock value ts, every reply carries ts and no other value, and, since
each wait call creates a fresh result channel so pending channel identities
are distinct, each pending ticket receives exactly one reply. -/
theorem barrier_release (w : Watcher) (ts : Nat) (h : w.time ≤ ts) :
    (w.reportEvent (some ts)).1.time = ts ∧
    (w.reportEvent (some ts)).1.tix = [] ∧
    (w.reportEvent (some ts)).2 = w.tix.map (fun t => (t.id, ts)) ∧
    (∀ t ∈ w.tix, (t.id, ts) ∈ (w.reportEvent (some ts)).2) ∧
    (∀ r ∈ (w.reportEvent (some ts)).2, r.2 = ts) ∧
    ((w.tix.map Ticket.id).Nodup →
      ∀ t ∈ w.tix, countReplies t.id (w.reportEvent (some ts)).2 = 1) := by
  have hlt : ¬ ts < w.time := Nat.not_lt.mpr h
  refine ⟨?_, ?_, ?_, ?_, ?_, ?_⟩
  · simp [Watcher.reportEvent, hlt]
  · simp [Watcher.reportEvent, hlt]
  · simp [Watcher.reportEvent, hlt]
  · intro t ht
    simp only [Watcher.reportEvent, hlt, if_neg hlt]
    exact List.mem_map_of_mem _ ht
  · intro r hr
    simp only [Watcher.reportEvent, hlt, if_neg hlt] at hr
    rcases List.mem_map.mp hr with ⟨t, _, rfl⟩
    rfl
  · intro hnd t ht
    simp only [Watcher.reportEvent, if_neg hlt, countReplies]
    rw [List.countP_map]
    have : ((fun r : Nat × Nat => r.1 == t.id) ∘ fun t2 : Ticket => (t2.id, ts))
        = (fun x => x == t.id) ∘ Ticket.id := rfl
    rw [this, ← List.countP_map]
    exact countP_beq_eq_one_of_nodup _ _ hnd (List.mem_map_of_mem _ ht)

theorem barrier_release_witness :
    (Watcher.reportEvent ⟨5, [⟨5, 0⟩, ⟨7, 1⟩]⟩ (some 9)).1.time = 9 ∧
    (Watcher.reportEvent ⟨5, [⟨5, 0⟩, ⟨7, 1⟩]⟩ (some 9)).1.tix = [] ∧
    (Watcher.reportEvent ⟨5, [⟨5, 0⟩, ⟨7, 1⟩]⟩ (some 9)).2
      = [⟨5, 0⟩, ⟨7, 1⟩].map (fun t : Ticket => (t.id, 9)) ∧
    (∀ t ∈ [(⟨5, 0⟩ : Ticket), ⟨7, 1⟩], (t.id, 9) ∈ (Watcher.reportEvent ⟨5, [⟨5, 0⟩, ⟨7, 1⟩]⟩ (some 9)).2) ∧
    (∀ r ∈ (Watcher.reportEvent ⟨5, [⟨5, 0⟩, ⟨7, 1⟩]⟩ (some 9)).2, r.2 = 9) ∧
    (([(⟨5, 0⟩ : Ticket), ⟨7, 1⟩].map Ticket.id).Nodup →
      ∀ t ∈ [(⟨5, 0⟩ : Ticket), ⟨7, 1⟩],
        countReplies t.id (Watcher.reportEvent ⟨5, [⟨5, 0⟩, ⟨7, 1⟩]⟩ (some 9)).2 = 1) :=
  barrier_release ⟨5, [⟨5, 0⟩, ⟨7, 1⟩]⟩ 9 (by decide)

/-- The clock values observed after each event of a sequence of change
events, each processed by reportEvent with a successful stat computing the
given timestamp. -/
def clockTrace (w : Watcher) : List Nat → List Nat
  | [] => []
  | ts :: rest =>
    let w' := (w.reportEvent (some ts)).1
    w'.time :: clockTrace w' rest

theorem reportEvent_time_mono (w : Watcher) (stat : Option Nat) :
    w.time ≤ (w.reportEvent stat).1.time := by
  match stat with
  | none => simp [Watcher.reportEvent]
  | some ts =>
    by_cases h : ts < w.time
    · simp [Watcher.reportEvent, h]
    · simp [Watcher.reportEvent, h]
      omega

theorem clockTrace_mono (w : Watcher) (evts : List Nat) :
    List.Chain' (· ≤ ·) (w.time :: clockTrace w evts) := by
  induction evts generalizing w with
  | nil => simp [clockTrace]
  | cons ts rest ih =>
    simp only [clockTrace]
    exact List.Chain'.cons (reportEvent_time_mono w (some ts))
      (ih ((w.reportEvent (some ts)).1))

/-- C2: Clock monotonicity.  For every sequence of change events whose
computed timestamps are non-decreasing, the clock value observed after each
step is non-decreasing across the whole sequence, starting from the initial
clock value.  The code in fact guarantees this for arbitrary timestamp
sequences, by ignoring any event computing below the clock. -/
theorem clock_monotone (w : Watcher) (evts : List Nat)
    (_h : List.Chain' (· ≤ ·) evts) :
    List.Chain' (· ≤ ·) (w.time :: clockTrace w evts) :=
  clockTrace_mono w evts

theorem clock_monotone_witness :
    List.Chain' (· ≤ ·) ((3 : Nat) :: clockTrace ⟨3, []⟩ [4, 4, 9]) :=
  clock_monotone ⟨3, []⟩ [4, 4, 9] (by simp [List.chain'_cons])

/-- One unit of inbound traffic multiplexed by the Coordinator loop: a wait
registration carrying a ticket, or a change event carrying its stat
outcome. -/
inductive WStep where
  | wait (t : Ticket)
  | event (stat : Option Nat)
deriving DecidableEq

/-- One iteration of the Coordinator loop on one inbound unit. -/
def wstep (w : Watcher) : WStep → Watcher × List (Nat × Nat)
  | WStep.wait t => w.acceptTicket t
  | WStep.event s => w.reportEvent s

/-- The Coordinator loop run over a list of inbound units in arrival order,
accumulating all replies sent, in send order. -/
def runSteps (w : Watcher) : List WStep → Watcher × List (Nat × Nat)
  | [] => (w, [])
  | s :: rest =>
    let p := wstep w s
    let q := runSteps p.1 rest
    (q.1, p.2 ++ q.2)

/-- Checks that no wait registration in the list carries a ticket whose
result channel has identity i. -/
def noWaitFor (i : Nat) (steps : List WStep) : Bool :=
  steps.all (fun s => match s with
    | WStep.wait t => t.id != i
    | WStep.event _ => true)

/-- Checks that somewhere along the run of the given steps a qualifying
change event is processed: a successful stat whose computed timestamp is at
least the clock value at that moment of the run. -/
def flushes (w : Watcher) : List WStep → Bool
  | [] => false
  | s :: rest =>
    (match s with
     | WStep.event (some ts) => decide (w.time ≤ ts)
     | _ => false)
    || flushes (wstep w s).1 rest

theorem countReplies_append (i : Nat) (a b : List (Nat × Nat)) :
    countReplies i (a ++ b) = countReplies i a + countReplies i b := by
  simp [countReplies, List.countP_append]

theorem wstep_conservation (i : Nat) (w : Watcher) (s : WStep)
    (h : ∀ t, s = WStep.wait t → t.id ≠ i) :
    countReplies i (wstep w s).2 + countTix i (wstep w s).1.tix
      = countTix i w.tix := by
  match s with
  | WStep.wait t =>
    have hne : t.id ≠ i := h t rfl
    by_cases hlt : t.time < w.time
    · simp [wstep, Watcher.acceptTicket, hlt, countReplies, countTix, hne]
    · simp [wstep, Watcher.acceptTicket, hlt, countReplies, countTix,
        List.countP_append, hne]
  | WStep.event none => simp [wstep, Watcher.reportEvent, countReplies]
  | WStep.event (some ts) =>
    by_cases hlt : ts < w.time
    · simp [wstep, Watcher.reportEvent, hlt, countReplies]
    · simp only [wstep, Watcher.reportEvent, if_neg hlt, countReplies, countTix]
      rw [List.countP_map]
      rfl

theorem runSteps_conservation (i : Nat) (steps : List WStep) (w : Watcher)
    (h : noWaitFor i steps = true) :
    countReplies i (runSteps w steps).2 + countTix i (runSteps w steps).1.tix
      = countTix i w.tix := by
  induction steps generalizing w with
  | nil => simp [runSteps, countReplies]
  | cons s rest ih =>
    simp only [noWaitFor, List.all_cons, Bool.and_eq_true] at h
    have hs : ∀ t, s = WStep.wait t → t.id ≠ i := by
      intro t hst
      subst hst
      simpa using h.1
    have hrest : noWaitFor i rest = true := h.2
    simp only [runSteps, countReplies_append]
    have h1 := wstep_conservation i w s hs
    have h2 := ih (wstep w s).1 hrest
    omega

theorem runSteps_append (w : Watcher) (a b : List WStep) :
    runSteps w (a ++ b)
      = ((runSteps (runSteps w a).1 b).1,
         (runSteps w a).2 ++ (runSteps (runSteps w a).1 b).2) := by
  induction a generalizing w with
  | nil => simp [runSteps]
  | cons s rest ih =>
    simp only [List.cons_append, runSteps, List.append_eq]
    rw [ih (wstep w s).1]
    simp [List.append_assoc]

theorem runSteps_flush (i : Nat) (steps : List WStep) (w : Watcher)
    (hnw : noWaitFor i steps = true) (hf : flushes w steps = true) :
    countTix i (runSteps w steps).1.tix = 0 := by
  induction steps generalizing w with
  | nil => simp [flushes] at hf
  | cons s rest ih =>
    simp only [noWaitFor, List.all_cons, Bool.and_eq_true] at hnw
    have hrest : noWaitFor i rest = true := hnw.2
    simp only [flushes, Bool.or_eq_true] at hf
    rcases hf with hq | hrec
    · have hzero : countTix i (wstep w s).1.tix = 0 := by
        match s, hq with
        | WStep.event (some ts), hq =>
          have hle : w.time ≤ ts := of_decide_eq_true hq
          simp [wstep, Watcher.reportEvent, Nat.not_lt.mpr hle, countTix]
      have := runSteps_conservation i rest (wstep w s).1 hrest
      simp only [runSteps]
      omega
    · simp only [runSteps]
      exact ih (wstep w s).1 hrest hrec

theorem wait_step_sum (w : Watcher) (t : Ticket) :
    countReplies t.id (w.acceptTicket t).2 + countTix t.id (w.acceptTicket t).1.tix
      = countTix t.id w.tix + 1 := by
  by_cases hlt : t.time < w.time
  · simp [Watcher.acceptTicket, hlt, countReplies, countTix]
    omega
  · simp [Watcher.acceptTicket, hlt, countReplies, countTix, List.countP_append]

/-- C4: Exactly-one-reply.  Consider any run of the Coordinator loop in which
the ticket t of one wait call is delivered once, with some steps before and
after, where the result channel of t is fresh: no pending ticket and no other
wait registration uses its identity.  Then over the whole run at most one
reply is ever sent on the result channel of t; the count of replies to t plus
the count of copies of t still pending at the end is exactly one, so a reply
is never sent twice; and if a qualifying change event, one whose successful
stat computes a timestamp at least the clock at that point of the run, is
processed after the delivery of t, then exactly one reply is sent to t. -/
theorem ticket_exactly_one_reply (w0 : Watcher) (pre : List WStep) (t : Ticket)
    (post : List WStep)
    (h0 : countTix t.id w0.tix = 0)
    (hpre : noWaitFor t.id pre = true)
    (hpost : noWaitFor t.id post = true) :
    countReplies t.id (runSteps w0 (pre ++ WStep.wait t :: post)).2 +
      countTix t.id (runSteps w0 (pre ++ WStep.wait t :: post)).1.tix = 1 ∧
    countReplies t.id (runSteps w0 (pre ++ WStep.wait t :: post)).2 ≤ 1 ∧
    (flushes (runSteps w0 (pre ++ [WStep.wait t])).1 post = true →
      countReplies t.id (runSteps w0 (pre ++ WStep.wait t :: post)).2 = 1) := by
  have hsplit := runSteps_append w0 pre (WStep.wait t :: post)
  have hpresum := runSteps_conservation t.id pre w0 hpre
  have hcons : countReplies t.id (runSteps w0 pre).2 = 0 ∧
      countTix t.id (runSteps w0 pre).1.tix = 0 := by omega
  set wA := (runSteps w0 pre).1 with hwA
  have hwaitsum := wait_step_sum wA t
  have hmid : runSteps wA (WStep.wait t :: post)
      = ((runSteps (wA.acceptTicket t).1 post).1,
         (wA.acceptTicket t).2 ++ (runSteps (wA.acceptTicket t).1 post).2) := by
    simp [runSteps, wstep]
  have hpostsum := runSteps_conservation t.id post (wA.acceptTicket t).1 hpost
  have htotal : countReplies t.id (runSteps w0 (pre ++ WStep.wait t :: post)).2 +
      countTix t.id (runSteps w0 (pre ++ WStep.wait t :: post)).1.tix = 1 := by
    rw [hsplit]
    simp only [hmid, countReplies_append]
    omega
  refine ⟨htotal, by omega, ?_⟩
  intro hfl
  have hAfter : (runSteps w0 (pre ++ [WStep.wait t])).1 = (wA.acceptTicket t).1 := by
    rw [runSteps_append w0 pre [WStep.wait t]]
    simp [runSteps, wstep]
  rw [hAfter] at hfl
  have hzero := runSteps_flush t.id post (wA.acceptTicket t).1 hpost hfl
  have hfinal : countTix t.id (runSteps w0 (pre ++ WStep.wait t :: post)).1.tix = 0 := by
    rw [hsplit]
    simpa only [hmid] using hzero
  omega

theorem ticket_exactly_one_reply_witness :
    countReplies 1 (runSteps ⟨5, []⟩ ([] ++ WStep.wait ⟨7, 1⟩ :: [WStep.event (some 9)])).2 = 1 :=
  (ticket_exactly_one_reply ⟨5, []⟩ [] ⟨7, 1⟩ [WStep.event (some 9)]
    (by decide) (by decide) (by decide)).2.2 (by decide)

/-- A cleaned filesystem path as produced by filepath.Abs or filepath.Dir of
the source: a flag saying whether the path is absolute plus the list of path
components.  The absolute path with no components is the filesystem root, and
the relative path with no components is the path named by a single dot. -/
structure GoPath where
  absolute : Bool
  comps : List String
deriving DecidableEq

/-- The relative path consisting of a single dot, the value filepath.Dir
returns when a relative path runs out of components. -/
def dotPath : GoPath := ⟨false, []⟩

/-- Embedding of filepath.Dir on cleaned paths: drop the last component; the
root and the dot path are their own parent. -/
def filepathDir (p : GoPath) : GoPath :=
  if p.comps = [] then p else ⟨p.absolute, p.comps.dropLast⟩

/-- The Stalker state, from the stalker type of the source: the registry map
req from path to requested flag, modelled as an association list where the
most recent binding wins; the list of fs.Watch invocations made, in order;
and the list of paths sent on the output channel ch, in order. -/
structure Stalker where
  req : List (GoPath × Bool)
  watchCalls : List GoPath
  out : List GoPath
deriving DecidableEq

/-- The Stalker state right after Stalk allocates it: empty registry, no
watch calls, nothing emitted. -/
def initStalker : Stalker := ⟨[], [], []⟩

/-- Lookup in the registry map: the most recent binding for the path, none
when the path is absent, matching a Go map read with an ok flag. -/
def lookupReq (m : List (GoPath × Bool)) (p : GoPath) : Option Bool :=
  match m with
  | [] => none
  | (q, b) :: rest => if q = p then some b else lookupReq rest p

/-- Embedding of the self-recursive stalker.watch with an explicit fuel
bound on the recursion depth, returning none when the fuel runs out.  Each
call checks membership in the registry, otherwise marks the path as not
requested, invokes fs.Watch on it, and recurses on its parent directory
unless that parent is the dot path. -/
def watchF : Nat → Stalker → GoPath → Option Stalker
  | 0, _, _ => none
  | fuel + 1, sr, p =>
    if (lookupReq sr.req p).isSome then some sr
    else
      let sr' : Stalker := ⟨(p, false) :: sr.req, sr.watchCalls ++ [p], sr.out⟩
      let d := filepathDir p
      if d = dotPath then some sr' else watchF fuel sr' d

theorem watchF_isSome_of_mem (fuel : Nat) (sr : Stalker) (p : GoPath)
    (hm : (lookupReq sr.req p).isSome) (hf : 1 ≤ fuel) :
    (watchF fuel sr p).isSome = true := by
  match fuel, hf with
  | f + 1, _ => simp [watchF, hm]

theorem watchF_isSome (fuel : Nat) (sr : Stalker) (p : GoPath)
    (h : p.comps.length + 2 ≤ fuel) : (watchF fuel sr p).isSome = true := by
  induction fuel generalizing sr p with
  | zero => omega
  | succ f ih =>
    by_cases hm : (lookupReq sr.req p).isSome
    · simp [watchF, hm]
    · simp only [watchF, hm, if_neg]
      rcases hc : p.comps with _ | ⟨c, cs⟩
      · by_cases ha : p.absolute
        · have hp : p = ⟨true, []⟩ := by
            cases p
            simp_all
          subst hp
          have hd : filepathDir ⟨true, []⟩ = ⟨true, []⟩ := by simp [filepathDir]
          rw [hd]
          simp only [dotPath, if_neg (by simp : ¬ (⟨true, []⟩ : GoPath) = ⟨false, []⟩)]
          apply watchF_isSome_of_mem
          · simp [lookupReq]
          · omega
        · have hp : p = dotPath := by
            cases p
            simp_all [dotPath]
          subst hp
          have hd : filepathDir dotPath = dotPath := by simp [filepathDir, dotPath]
          simp [hd]
      · have hd : filepathDir p = ⟨p.absolute, (c :: cs).dropLast⟩ := by
          simp [filepathDir, hc]
        by_cases hdot : filepathDir p = dotPath
        · simp [hdot]
        · simp only [if_neg hdot]
          apply ih
          have : ((c :: cs).dropLast).length = cs.length := by
            simp [List.length_dropLast]
          simp only [hd, this]
          have hlen : p.comps.length = cs.length + 1 := by rw [hc]; rfl
          omega

/-- Embedding of stalker.watch: run the fuelled recursion with fuel two more
than the number of path components, which the termination theorem shows is
always enough. -/
def Stalker.watch (sr : Stalker) (p : GoPath) : Stalker :=
  (watchF (p.comps.length + 2) sr p).getD sr

/-- C10: Upward-walk termination.  The self-recursive stalker.watch
terminates for every input path and every registry state: the fuelled
embedding never exhausts a fuel of two more than the number of path
components, because each recursive call passes the parent directory, the
walk on a relative path stops at the explicit dot check, and the walk on an
absolute path stops when the parent operation reaches its fixed point at the
root, which was inserted into the registry by the previous call. -/
theorem watch_terminates (fuel : Nat) (sr : Stalker) (p : GoPath)
    (h : p.comps.length + 2 ≤ fuel) : (watchF fuel sr p).isSome = true :=
  watchF_isSome fuel sr p h

theorem watch_terminates_witness :
    (watchF 4 initStalker ⟨true, ["a", "b"]⟩).isSome = true :=
  watch_terminates 4 initStalker ⟨true, ["a", "b"]⟩ (by decide)

theorem lookupReq_cons (x q : GoPath) (b : Bool) (m : List (GoPath × Bool)) :
    lookupReq ((x, b) :: m) q = if x = q then some b else lookupReq m q := rfl

theorem filepathDir_absolute (p : GoPath) :
    (filepathDir p).absolute = p.absolute := by
  by_cases h : p.comps = []
  · simp [filepathDir, h]
  · simp [filepathDir, h]

theorem filepathDir_ne_dot_of_absolute (p : GoPath) (h : p.absolute = true) :
    filepathDir p ≠ dotPath := by
  intro hcontra
  have := filepathDir_absolute p
  rw [hcontra, h] at this
  simp [dotPath] at this

theorem watchF_inv (fuel : Nat) :
    ∀ (sr : Stalker) (x : GoPath) (sr' : Stalker),
    x.absolute = true →
    sr.watchCalls.Nodup →
    (∀ q, (lookupReq sr.req q).isSome ↔ q ∈ sr.watchCalls) →
    (∀ q, (lookupReq sr.req q).isSome → q.absolute = true) →
    (∀ q, (lookupReq sr.req q).isSome →
       (lookupReq sr.req (filepathDir q)).isSome ∨ filepathDir q = x) →
    watchF fuel sr x = some sr' →
    sr'.watchCalls.Nodup ∧
    (∀ q, (lookupReq sr'.req q).isSome ↔ q ∈ sr'.watchCalls) ∧
    (∀ q, (lookupReq sr'.req q).isSome → q.absolute = true) ∧
    (∀ q, (lookupReq sr'.req q).isSome → (lookupReq sr'.req (filepathDir q)).isSome) ∧
    (lookupReq sr'.req x).isSome = true ∧
    (∀ q b, lookupReq sr.req q = some b → lookupReq sr'.req q = some b) ∧
    sr'.out = sr.out := by
  induction fuel with
  | zero =>
    intro sr x sr' _ _ _ _ _ heq
    simp [watchF] at heq
  | succ f ih =>
    intro sr x sr' hxabs hnd hiff habs hhole heq
    by_cases hm : (lookupReq sr.req x).isSome
    · rw [watchF, if_pos hm] at heq
      cases heq
      refine ⟨hnd, hiff, habs, ?_, hm, fun q b hb => hb, rfl⟩
      intro q hq
      rcases hhole q hq with hcl | hx
      · exact hcl
      · rw [hx]
        exact hm
    · rw [watchF, if_neg hm] at heq
      have hxmem : x ∉ sr.watchCalls := fun hc => hm ((hiff x).mpr hc)
      have hnone : lookupReq sr.req x = none := by
        cases hl : lookupReq sr.req x with
        | none => rfl
        | some b => rw [hl] at hm; simp at hm
      set sr1 : Stalker := ⟨(x, false) :: sr.req, sr.watchCalls ++ [x], sr.out⟩ with hsr1
      have hnd1 : sr1.watchCalls.Nodup := by
        simp only [hsr1, List.nodup_append]
        refine ⟨hnd, List.nodup_singleton x, ?_⟩
        intro a ha
        simp only [List.mem_singleton]
        intro hax
        subst hax
        exact hxmem ha
      have hiff1 : ∀ q, (lookupReq sr1.req q).isSome ↔ q ∈ sr1.watchCalls := by
        intro q
        simp only [hsr1, lookupReq_cons, List.mem_append, List.mem_singleton]
        by_cases hqx : x = q
        · subst hqx
          simp
        · simp only [if_neg hqx]
          rw [hiff q]
          constructor
          · intro h2
            exact Or.inl h2
          · intro h2
            rcases h2 with h2 | h2
            · exact h2
            · exact absurd h2.symm hqx
      have habs1 : ∀ q, (lookupReq sr1.req q).isSome → q.absolute = true := by
        intro q hq
        simp only [hsr1, lookupReq_cons] at hq
        by_cases hqx : x = q
        · subst hqx
          exact hxabs
        · rw [if_neg hqx] at hq
          exact habs q hq
      have hhole1 : ∀ q, (lookupReq sr1.req q).isSome →
          (lookupReq sr1.req (filepathDir q)).isSome ∨ filepathDir q = filepathDir x := by
        intro q hq
        simp only [hsr1, lookupReq_cons] at hq
        by_cases hqx : x = q
        · subst hqx
          exact Or.inr rfl
        · rw [if_neg hqx] at hq
          rcases hhole q hq with hcl | hx2
        
          · left
            simp only [hsr1, lookupReq_cons]
            by_cases hdq : x = filepathDir q
            · simp [hdq]
            · rw [if_neg hdq]
              exact hcl
          · left
            simp only [hsr1, lookupReq_cons, hx2, if_pos rfl]
            rfl
      by_cases hdot : filepathDir x = dotPath
      · exact absurd hdot (filepathDir_ne_dot_of_absolute x hxabs)
      · rw [if_neg hdot] at heq
        have hdabs : (filepathDir x).absolute = true := by
          rw [filepathDir_absolute]
          exact hxabs
        have hrec := ih sr1 (filepathDir x) sr' hdabs hnd1 hiff1 habs1 hhole1 heq
        rcases hrec with ⟨hnd2, hiff2, habs2, hclosed2, hdmem2, hpres2, hout2⟩
        have hx1 : lookupReq sr1.req x = some false := by
          simp [hsr1, lookupReq_cons]
        have hxin : lookupReq sr'.req x = some false := hpres2 x false hx1
        refine ⟨hnd2, hiff2, habs2, hclosed2, by simp [hxin], ?_, by simp [hout2, hsr1]⟩
        intro q b hb
        apply hpres2
        have hqx : x ≠ q := by
          intro hcontra
          rw [hcontra] at hnone
          rw [hnone] at hb
          cases hb
        simp [hsr1, lookupReq_cons, if_neg hqx]
        exact hb

/-- The registry bookkeeping invariant maintained by the startup registration
of Stalk on absolute targets: watch calls are distinct, the registry keys are
exactly the watched paths, every key is absolute, and the registry is closed
under taking the parent directory. -/
def regInv (sr : Stalker) : Prop :=
  sr.watchCalls.Nodup ∧
  (∀ q, (lookupReq sr.req q).isSome ↔ q ∈ sr.watchCalls) ∧
  (∀ q, (lookupReq sr.req q).isSome → q.absolute = true) ∧
  (∀ q, (lookupReq sr.req q).isSome → (lookupReq sr.req (filepathDir q)).isSome)

theorem watch_inv (sr : Stalker) (x : GoPath) (hx : x.absolute = true)
    (h : regInv sr) :
    regInv (sr.watch x) ∧ (lookupReq (sr.watch x).req x).isSome = true ∧
    (∀ q b, lookupReq sr.req q = some b → lookupReq (sr.watch x).req q = some b) ∧
    (sr.watch x).out = sr.out := by
  obtain ⟨hnd, hiff, habs, hcl⟩ := h
  have hs := watchF_isSome (x.comps.length + 2) sr x (Nat.le_refl _)
  cases heq : watchF (x.comps.length + 2) sr x with
  | none =>
    rw [heq] at hs
    simp at hs
  | some sr' =>
    have hw : sr.watch x = sr' := by simp [Stalker.watch, heq]
    have hmain := watchF_inv _ sr x sr' hx hnd hiff habs
      (fun q hq => Or.inl (hcl q hq)) heq
    rw [hw]
    exact ⟨⟨hmain.1, hmain.2.1, hmain.2.2.1, hmain.2.2.2.1⟩, hmain.2.2.2.2.1,
      hmain.2.2.2.2.2.1, hmain.2.2.2.2.2.2⟩

theorem watch_noop (sr : Stalker) (q : GoPath)
    (h : (lookupReq sr.req q).isSome = true) : sr.watch q = sr := by
  have : watchF (q.comps.length + 2) sr q = some sr := by
    rw [watchF, if_pos h]
  simp [Stalker.watch, this]

/-- One iteration of the startup loop of Stalk on an already resolved
absolute path: the recursive watch walk followed by marking the path as a
requested target in the registry. -/
def registerTarget (sr : Stalker) (p : GoPath) : Stalker :=
  let sr1 := sr.watch p
  ⟨(p, true) :: sr1.req, sr1.watchCalls, sr1.out⟩

theorem lookupReq_isSome_cons (x q : GoPath) (b : Bool) (m : List (GoPath × Bool)) :
    (lookupReq ((x, b) :: m) q).isSome = true ↔ x = q ∨ (lookupReq m q).isSome = true := by
  rw [lookupReq_cons]
  by_cases hxq : x = q
  · simp [hxq]
  · simp [hxq]

theorem registerTarget_inv (sr : Stalker) (p : GoPath) (hp : p.absolute = true)
    (h : regInv sr) :
    regInv (registerTarget sr p) ∧
    lookupReq (registerTarget sr p).req p = some true ∧
    (∀ q, lookupReq sr.req q = some true →
      lookupReq (registerTarget sr p).req q = some true) := by
  obtain ⟨hinv1, hmem1, hpres1, _⟩ := watch_inv sr p hp h
  obtain ⟨hnd, hiff, habs, hcl⟩ := hinv1
  have hself : lookupReq (registerTarget sr p).req p = some true := by
    simp [registerTarget, lookupReq_cons]
  refine ⟨⟨hnd, ?_, ?_, ?_⟩, hself, ?_⟩
  · intro q
    simp only [registerTarget]
    rw [lookupReq_isSome_cons]
    constructor
    · intro h2
      rcases h2 with h2 | h2
      · subst h2
        exact (hiff p).mp hmem1
      · exact (hiff q).mp h2
    · intro h2
      exact Or.inr ((hiff q).mpr h2)
  · intro q hq
    simp only [registerTarget] at hq
    rw [lookupReq_isSome_cons] at hq
    rcases hq with hq | hq
    · subst hq
      exact hp
    · exact habs q hq
  · intro q hq
    simp only [registerTarget] at hq ⊢
    rw [lookupReq_isSome_cons] at hq
    rw [lookupReq_isSome_cons]
    rcases hq with hq | hq
    · subst hq
      exact Or.inr (hcl p hmem1)
    · exact Or.inr (hcl q hq)
  · intro q hq
    simp only [registerTarget, lookupReq_cons]
    by_cases hpq : p = q
    · simp [hpq]
    · rw [if_neg hpq]
      exact hpres1 q true hq

/-- The startup registration loop of Stalk over the already resolved
absolute target paths, in order: watch each target, then mark it
requested. -/
def stalkRegister (sr : Stalker) : List GoPath → Stalker
  | [] => sr
  | p :: rest => stalkRegister (registerTarget sr p) rest

theorem stalkRegister_inv (targets : List GoPath) :
    ∀ (sr : Stalker), (∀ p ∈ targets, p.absolute = true) → regInv sr →
    regInv (stalkRegister sr targets) ∧
    (∀ p ∈ targets, lookupReq (stalkRegister sr targets).req p = some true) ∧
    (∀ q, lookupReq sr.req q = some true →
      lookupReq (stalkRegister sr targets).req q = some true) := by
  induction targets with
  | nil =>
    intro sr _ hinv
    refine ⟨hinv, ?_, ?_⟩
    · intro p hp
      cases hp
    · intro q hq
      exact hq
  | cons p rest ih =>
    intro sr habs hinv
    have hp : p.absolute = true := habs p (List.mem_cons_self p rest)
    have hrest : ∀ r ∈ rest, r.absolute = true := fun r hr => habs r (List.mem_cons_of_mem p hr)
    obtain ⟨hinv1, hptrue, hpres1⟩ := registerTarget_inv sr p hp hinv
    obtain ⟨hinv2, htargets2, hpres2⟩ := ih (registerTarget sr p) hrest hinv1
    refine ⟨hinv2, ?_, ?_⟩
    · intro r hr
      rcases List.mem_cons.mp hr with hr | hr
      · subst hr
        exact hpres2 r hptrue
      · exact htargets2 r hr
    · intro q hq
      exact hpres2 q (hpres1 q hq)

theorem regInv_init : regInv initStalker := by
  refine ⟨List.nodup_nil, ?_, ?_, ?_⟩ <;> intro q <;> simp [initStalker, lookupReq]

theorem take_succ_dropLast {α : Type} (l : List α) :
    ∀ m, m + 1 ≤ l.length → (l.take (m + 1)).dropLast = l.take m := by
  induction l with
  | nil =>
    intro m h
    simp at h
  | cons a tl ih =>
    intro m h
    cases m with
    | zero => simp
    | succ n =>
      have hlen : n + 1 ≤ tl.length := by
        simp only [List.length_cons] at h
        omega
      rw [List.take_succ_cons, List.take_succ_cons]
      have hne : tl.take (n + 1) ≠ [] := by
        have hlt : 0 < (tl.take (n + 1)).length := by
          rw [List.length_take]
          omega
        exact List.length_pos.mp hlt
      rw [List.dropLast_cons_of_ne_nil hne]
      rw [ih n hlen]

theorem ancestor_chain (sr : Stalker)
    (hcl : ∀ q, (lookupReq sr.req q).isSome → (lookupReq sr.req (filepathDir q)).isSome)
    (l : List String) (hP : (lookupReq sr.req ⟨true, l⟩).isSome = true) :
    ∀ k, k ≤ l.length → (lookupReq sr.req ⟨true, l.take k⟩).isSome = true := by
  have hdesc : ∀ j, j ≤ l.length →
      (lookupReq sr.req ⟨true, l.take (l.length - j)⟩).isSome = true := by
    intro j
    induction j with
    | zero =>
      intro _
      simpa [List.take_length] using hP
    | succ n ihn =>
      intro hj
      have hn := ihn (by omega)
      have hk : l.length - n = (l.length - (n + 1)) + 1 := by omega
      rw [hk] at hn
      have hdir : filepathDir ⟨true, l.take ((l.length - (n + 1)) + 1)⟩
          = ⟨true, l.take (l.length - (n + 1))⟩ := by
        have htake : l.take ((l.length - (n + 1)) + 1) ≠ [] := by
          have hlt : 0 < (l.take ((l.length - (n + 1)) + 1)).length := by
            rw [List.length_take]
            omega
          exact List.length_pos.mp hlt
        have hstep := take_succ_dropLast l (l.length - (n + 1)) (by omega)
        simp [filepathDir, htake, hstep]
      have := hcl ⟨true, l.take ((l.length - (n + 1)) + 1)⟩ hn
      rw [hdir] at this
      exact this
  intro k hk
  have := hdesc (l.length - k) (by omega)
  have hkk : l.length - (l.length - k) = k := by omega
  rw [hkk] at this
  exact this

/-- C9: Registry ancestor-chain invariant.  After the startup registration of
Stalk over resolved absolute targets: every target is in the registry marked
requested; for every target the full ancestor directory chain strictly
between the target and the filesystem root is present in the registry; the
fs.Watch calls made are pairwise distinct and every registered path was
subscribed exactly once, so in particular two sibling targets produce exactly
one subscription to their shared parent directory; and invoking watch on a
path already present in the registry returns the state unchanged, a no-op
rather than an error. -/
theorem stalk_registry_invariant (targets : List GoPath)
    (habs : ∀ p ∈ targets, p.absolute = true) :
    (∀ p ∈ targets, lookupReq (stalkRegister initStalker targets).req p = some true) ∧
    (∀ p ∈ targets, ∀ k, 1 ≤ k → k < p.comps.length →
      (lookupReq (stalkRegister initStalker targets).req ⟨true, p.comps.take k⟩).isSome = true) ∧
    (stalkRegister initStalker targets).watchCalls.Nodup ∧
    (∀ q, (lookupReq (stalkRegister initStalker targets).req q).isSome = true →
      (stalkRegister initStalker targets).watchCalls.count q = 1) ∧
    (∀ (sr : Stalker) (q : GoPath), (lookupReq sr.req q).isSome = true →
      sr.watch q = sr) := by
  obtain ⟨⟨hnd, hiff, _, hcl⟩, htrue, _⟩ :=
    stalkRegister_inv targets initStalker habs regInv_init
  refine ⟨htrue, ?_, hnd, ?_, ?_⟩
  · intro p hp k hk1 hk2
    have hpabs : p.absolute = true := habs p hp
    have hpe : p = ⟨true, p.comps⟩ := by
      cases p
      simp_all
    have hP : (lookupReq (stalkRegister initStalker targets).req
        ⟨true, p.comps⟩).isSome = true := by
      rw [← hpe, htrue p hp]
      rfl
    exact ancestor_chain _ hcl p.comps hP k (by omega)
  · intro q hq
    exact List.count_eq_one_of_mem hnd ((hiff q).mp hq)
  · intro sr q hq
    exact watch_noop sr q hq

theorem stalk_registry_invariant_witness :
    lookupReq (stalkRegister initStalker
        [⟨true, ["d", "a"]⟩, ⟨true, ["d", "b"]⟩]).req ⟨true, ["d", "a"]⟩ = some true ∧
    (stalkRegister initStalker
        [⟨true, ["d", "a"]⟩, ⟨true, ["d", "b"]⟩]).watchCalls.count ⟨true, ["d"]⟩ = 1 :=
  ⟨(stalk_registry_invariant [⟨true, ["d", "a"]⟩, ⟨true, ["d", "b"]⟩]
      (by decide)).1 ⟨true, ["d", "a"]⟩ (by decide),
   (stalk_registry_invariant [⟨true, ["d", "a"]⟩, ⟨true, ["d", "b"]⟩]
      (by decide)).2.2.2.1 ⟨true, ["d"]⟩ (by decide)⟩

/-- The kind of a low-level fsnotify file event, as tested by the IsCreate,
IsDelete, IsModify and IsRename predicates of the event type. -/
inductive FileEventKind where
  | create
  | modify
  | delete
  | rename
deriving DecidableEq

/-- A low-level fsnotify file event: its kind and the reported path. -/
structure FileEvent where
  kind : FileEventKind
  name : GoPath
deriving DecidableEq

/-- Embedding of stalker.processEvent: an event whose path is absent from the
registry is discarded; a create event re-issues fs.Watch on the path; the
path is sent on the output channel exactly when its registry entry is
true. -/
def processEvent (sr : Stalker) (e : FileEvent) : Stalker :=
  match lookupReq sr.req e.name with
  | none => sr
  | some em =>
    let sr1 : Stalker :=
      if e.kind = FileEventKind.create
      then ⟨sr.req, sr.watchCalls ++ [e.name], sr.out⟩ else sr
    if em then ⟨sr1.req, sr1.watchCalls, sr1.out ++ [e.name]⟩ else sr1

/-- The event half of the stalker.process loop, over a list of events in
arrival order. -/
def processEvents (sr : Stalker) : List FileEvent → Stalker
  | [] => sr
  | e :: rest => processEvents (processEvent sr e) rest

theorem processEvent_req (sr : Stalker) (e : FileEvent) :
    (processEvent sr e).req = sr.req := by
  cases hl : lookupReq sr.req e.name with
  | none => simp [processEvent, hl]
  | some em =>
    cases em <;> cases hkind : e.kind <;> simp [processEvent, hl, hkind]

theorem processEvent_out_mem (sr : Stalker) (e : FileEvent) (q : GoPath)
    (hq : q ∈ (processEvent sr e).out) :
    q ∈ sr.out ∨ (q = e.name ∧ lookupReq sr.req e.name = some true) := by
  cases hl : lookupReq sr.req e.name with
  | none =>
    rw [processEvent, hl] at hq
    exact Or.inl hq
  | some em =>
    cases em with
    | false =>
      rw [processEvent, hl] at hq
      simp only [if_neg (by simp : ¬ (false = true))] at hq
      cases hkind : e.kind <;> rw [hkind] at hq <;> simp at hq <;> exact Or.inl hq
    | true =>
      rw [processEvent, hl] at hq
      simp only [if_pos rfl] at hq
      cases hkind : e.kind <;> rw [hkind] at hq <;> simp at hq <;>
        rcases hq with hq | hq
      case _ => exact Or.inl hq
      case _ => exact Or.inr ⟨hq, rfl⟩
      case _ => exact Or.inl hq
      case _ => exact Or.inr ⟨hq, rfl⟩
      case _ => exact Or.inl hq
      case _ => exact Or.inr ⟨hq, rfl⟩
      case _ => exact Or.inl hq
      case _ => exact Or.inr ⟨hq, rfl⟩

theorem processEvents_out_mem (es : List FileEvent) :
    ∀ (sr : Stalker) (q : GoPath), q ∈ (processEvents sr es).out →
      q ∈ sr.out ∨ lookupReq sr.req q = some true := by
  induction es with
  | nil =>
    intro sr q hq
    exact Or.inl hq
  | cons e rest ih =>
    intro sr q hq
    rcases ih (processEvent sr e) q hq with h1 | h1
    · rcases processEvent_out_mem sr e q h1 with h2 | h2
      · exact Or.inl h2
      · right
        rw [h2.1]
        exact h2.2
    · right
      rw [processEvent_req sr e] at h1
      exact h1

theorem watchF_true_reflect (fuel : Nat) :
    ∀ (sr : Stalker) (x : GoPath) (sr' : Stalker), watchF fuel sr x = some sr' →
    ∀ q, lookupReq sr'.req q = some true → lookupReq sr.req q = some true := by
  induction fuel with
  | zero =>
    intro sr x sr' heq
    simp [watchF] at heq
  | succ f ih =>
    intro sr x sr' heq q hq
    by_cases hm : (lookupReq sr.req x).isSome
    · rw [watchF, if_pos hm] at heq
      cases heq
      exact hq
    · rw [watchF, if_neg hm] at heq
      by_cases hdot : filepathDir x = dotPath
      · rw [if_pos hdot] at heq
        cases heq
        rw [lookupReq_cons] at hq
        by_cases hxq : x = q
        · rw [if_pos hxq] at hq
          cases hq
        · rw [if_neg hxq] at hq
          exact hq
      · rw [if_neg hdot] at heq
        have := ih _ _ _ heq q hq
        rw [lookupReq_cons] at this
        by_cases hxq : x = q
        · rw [if_pos hxq] at this
          cases this
        · rw [if_neg hxq] at this
          exact this

theorem watch_true_reflect (sr : Stalker) (x : GoPath) (q : GoPath)
    (hq : lookupReq (sr.watch x).req q = some true) :
    lookupReq sr.req q = some true := by
  cases heq : watchF (x.comps.length + 2) sr x with
  | none =>
    rw [Stalker.watch, heq] at hq
    exact hq
  | some sr' =>
    rw [Stalker.watch, heq] at hq
    exact watchF_true_reflect _ sr x sr' heq q hq

theorem stalkRegister_true_reflect (targets : List GoPath) :
    ∀ (sr : Stalker) (q : GoPath),
      lookupReq (stalkRegister sr targets).req q = some true →
      q ∈ targets ∨ lookupReq sr.req q = some true := by
  induction targets with
  | nil =>
    intro sr q hq
    exact Or.inr hq
  | cons p rest ih =>
    intro sr q hq
    rcases ih (registerTarget sr p) q hq with h1 | h1
    · exact Or.inl (List.mem_cons_of_mem p h1)
    · simp only [registerTarget, lookupReq_cons] at h1
      by_cases hpq : p = q
      · exact Or.inl (by rw [← hpq]; exact List.mem_cons_self p rest)
      · rw [if_neg hpq] at h1
        exact Or.inr (watch_true_reflect sr p q h1)

/-- C6: Filtering correctness.  An event whose path is absent from the
registry leaves the Stalker state unchanged; an event whose registry entry is
false, an ancestor-only path, is never emitted regardless of kind; any path
ever appearing on the output stream of the event loop has registry entry
true; and after the startup registration from an initial state, registry
entry true holds only for the originally requested targets, so only
requested targets are ever emitted. -/
theorem stalker_filtering (targets : List GoPath) (sr : Stalker) (es : List FileEvent) :
    (∀ e : FileEvent, lookupReq sr.req e.name = none → processEvent sr e = sr) ∧
    (∀ e : FileEvent, lookupReq sr.req e.name = some false →
      (processEvent sr e).out = sr.out) ∧
    (∀ q : GoPath, q ∈ (processEvents sr es).out →
      q ∈ sr.out ∨ lookupReq sr.req q = some true) ∧
    (∀ q : GoPath, lookupReq (stalkRegister initStalker targets).req q = some true →
      q ∈ targets) := by
  refine ⟨?_, ?_, processEvents_out_mem es sr, ?_⟩
  · intro e he
    simp [processEvent, he]
  · intro e he
    cases hkind : e.kind <;> simp [processEvent, he, hkind]
  · intro q hq
    rcases stalkRegister_true_reflect targets initStalker q hq with h1 | h1
    · exact h1
    · simp [initStalker, lookupReq] at h1

theorem stalker_filtering_witness :
    (∀ e : FileEvent,
      lookupReq (stalkRegister initStalker [⟨true, ["d", "a"]⟩]).req e.name = none →
      processEvent (stalkRegister initStalker [⟨true, ["d", "a"]⟩]) e
        = stalkRegister initStalker [⟨true, ["d", "a"]⟩]) ∧
    (∀ e : FileEvent,
      lookupReq (stalkRegister initStalker [⟨true, ["d", "a"]⟩]).req e.name = some false →
      (processEvent (stalkRegister initStalker [⟨true, ["d", "a"]⟩]) e).out
        = (stalkRegister initStalker [⟨true, ["d", "a"]⟩]).out) ∧
    (∀ q : GoPath,
      q ∈ (processEvents (stalkRegister initStalker [⟨true, ["d", "a"]⟩])
        [⟨FileEventKind.modify, ⟨true, ["d"]⟩⟩, ⟨FileEventKind.modify, ⟨true, ["d", "a"]⟩⟩]).out →
      q ∈ (stalkRegister initStalker [⟨true, ["d", "a"]⟩]).out ∨
        lookupReq (stalkRegister initStalker [⟨true, ["d", "a"]⟩]).req q = some true) ∧
    (∀ q : GoPath,
      lookupReq (stalkRegister initStalker [⟨true, ["d", "a"]⟩]).req q = some true →
      q ∈ [(⟨true, ["d", "a"]⟩ : GoPath)]) :=
  stalker_filtering [⟨true, ["d", "a"]⟩] (stalkRegister initStalker [⟨true, ["d", "a"]⟩])
    [⟨FileEventKind.modify, ⟨true, ["d"]⟩⟩, ⟨FileEventKind.modify, ⟨true, ["d", "a"]⟩⟩]

/-- A requested target path used in the atomic-replace scenario, standing
for the absolute path of a watched file such as body.html inside its parent
directory. -/
def bodyPath : GoPath := ⟨true, ["d", "b"]⟩

/-- C7 counterexample: for a requested target registered from a fresh state,
processing the save-by-replace event sequence, a delete of the exact target
path followed by a create at the same path, emits the path twice, once per
event, not exactly once as claimed: the delete event already emits because
the registry entry of the target is true regardless of event kind. -/
theorem atomic_replace_not_single_emission :
    (processEvents (stalkRegister initStalker [bodyPath])
      [⟨FileEventKind.delete, bodyPath⟩, ⟨FileEventKind.create, bodyPath⟩]).out
      = [bodyPath, bodyPath] ∧
    ¬ ((processEvents (stalkRegister initStalker [bodyPath])
      [⟨FileEventKind.delete, bodyPath⟩, ⟨FileEventKind.create, bodyPath⟩]).out.count bodyPath
        = 1) := by
  decide

/-- C7 amended: for any state in which path p has registry entry true,
processing the delete-then-create sequence at p emits p exactly once per
event, two changes in total; a fresh fs.Watch subscription is issued for p on
the create event, and only on the create event; and a subsequent modify event
on the replaced file is still emitted. -/
theorem atomic_replace_emissions (sr : Stalker) (p : GoPath)
    (h : lookupReq sr.req p = some true) :
    (processEvents sr [⟨FileEventKind.delete, p⟩, ⟨FileEventKind.create, p⟩]).out
      = sr.out ++ [p, p] ∧
    (processEvents sr [⟨FileEventKind.delete, p⟩, ⟨FileEventKind.create, p⟩]).watchCalls
      = sr.watchCalls ++ [p] ∧
    (processEvent (processEvents sr [⟨FileEventKind.delete, p⟩, ⟨FileEventKind.create, p⟩])
      ⟨FileEventKind.modify, p⟩).out = sr.out ++ [p, p, p] := by
  have h1 : processEvent sr ⟨FileEventKind.delete, p⟩
      = ⟨sr.req, sr.watchCalls, sr.out ++ [p]⟩ := by
    simp [processEvent, h]
  have h2 : processEvent (⟨sr.req, sr.watchCalls, sr.out ++ [p]⟩ : Stalker)
      ⟨FileEventKind.create, p⟩
      = ⟨sr.req, sr.watchCalls ++ [p], sr.out ++ [p] ++ [p]⟩ := by
    simp [processEvent, h]
  have hrun : processEvents sr [⟨FileEventKind.delete, p⟩, ⟨FileEventKind.create, p⟩]
      = ⟨sr.req, sr.watchCalls ++ [p], sr.out ++ [p] ++ [p]⟩ := by
    simp [processEvents, h1, h2]
  have h3 : processEvent (⟨sr.req, sr.watchCalls ++ [p], sr.out ++ [p] ++ [p]⟩ : Stalker)
      ⟨FileEventKind.modify, p⟩
      = ⟨sr.req, sr.watchCalls ++ [p], sr.out ++ [p] ++ [p] ++ [p]⟩ := by
    simp [processEvent, h]
  rw [hrun]
  refine ⟨by simp, rfl, ?_⟩
  rw [h3]
  simp

theorem atomic_replace_emissions_witness :
    (processEvents (stalkRegister initStalker [bodyPath])
      [⟨FileEventKind.delete, bodyPath⟩, ⟨FileEventKind.create, bodyPath⟩]).out
      = (stalkRegister initStalker [bodyPath]).out ++ [bodyPath, bodyPath] ∧
    (processEvents (stalkRegister initStalker [bodyPath])
      [⟨FileEventKind.delete, bodyPath⟩, ⟨FileEventKind.create, bodyPath⟩]).watchCalls
      = (stalkRegister initStalker [bodyPath]).watchCalls ++ [bodyPath] ∧
    (processEvent (processEvents (stalkRegister initStalker [bodyPath])
      [⟨FileEventKind.delete, bodyPath⟩, ⟨FileEventKind.create, bodyPath⟩])
      ⟨FileEventKind.modify, bodyPath⟩).out
      = (stalkRegister initStalker [bodyPath]).out ++ [bodyPath, bodyPath, bodyPath] :=
  atomic_replace_emissions (stalkRegister initStalker [bodyPath]) bodyPath (by decide)

/-- Error values reported by the operating system layer. -/
abbrev Err := String

/-- Oracle for the operating system operations used by Stalk during startup:
the outcome of fsnotify.NewWatcher, the outcome of filepath.Abs per raw
argument, and the outcome that fs.Watch would report per path; the source
discards the fs.Watch return value inside stalker.watch, so the embedding of
Stalk never consults the watchErr field, mirroring that discard. -/
structure FsOracle where
  newWatcherErr : Option Err
  absPath : String → Except Err GoPath
  watchErr : GoPath → Option Err

/-- The startup loop of Stalk over the raw argument paths, threading the err
variable of the source: each iteration overwrites err with the result of
filepath.Abs, returns early with a nil stream on a resolution failure, and
otherwise registers the resolved target; the final return hands back the
stream together with whatever is left in err. -/
def stalkLoop (o : FsOracle) (sr : Stalker) :
    List String → Option Err → Option Stalker × Option Err
  | [], err => (some sr, err)
  | raw :: rest, _ =>
    match o.absPath raw with
    | Except.error e => (none, some e)
    | Except.ok p => stalkLoop o (registerTarget sr p) rest none

/-- Embedding of Stalk: err initially holds the result of
fsnotify.NewWatcher, then the registration loop runs over the arguments. -/
def Stalk (o : FsOracle) (paths : List String) : Option Stalker × Option Err :=
  stalkLoop o initStalker paths o.newWatcherErr

/-- The first filepath.Abs failure over the argument list, if any. -/
def firstAbsErr (o : FsOracle) : List String → Option Err
  | [] => none
  | raw :: rest =>
    match o.absPath raw with
    | Except.error e => some e
    | Except.ok _ => firstAbsErr o rest

theorem stalkLoop_spec (o : FsOracle) (paths : List String) :
    ∀ (sr : Stalker) (e0 : Option Err),
    (stalkLoop o sr paths e0).2
      = (match paths with
         | [] => e0
         | _ :: _ => firstAbsErr o paths) ∧
    (stalkLoop o sr paths e0).1.isSome = (firstAbsErr o paths).isNone := by
  induction paths with
  | nil =>
    intro sr e0
    exact ⟨rfl, rfl⟩
  | cons raw rest ih =>
    intro sr e0
    cases habs : o.absPath raw with
    | error e =>
      refine ⟨?_, ?_⟩ <;> simp [stalkLoop, firstAbsErr, habs]
    | ok p =>
      have hrec := ih (registerTarget sr p) none
      refine ⟨?_, ?_⟩
      · rw [show (stalkLoop o sr (raw :: rest) e0)
            = stalkLoop o (registerTarget sr p) rest none by simp [stalkLoop, habs]]
        rw [hrec.1]
        cases rest with
        | nil => simp [firstAbsErr, habs]
        | cons r2 rest2 => simp [firstAbsErr, habs]
      · rw [show (stalkLoop o sr (raw :: rest) e0)
            = stalkLoop o (registerTarget sr p) rest none by simp [stalkLoop, habs]]
        rw [hrec.2]
        simp [firstAbsErr, habs]

/-- C8 amended: Stalk returns an error exactly in these cases: some argument
fails to resolve to absolute form, in which case the first such resolution
error is returned and the stream is nil; or the argument list is empty, in
which case whatever fsnotify.NewWatcher reported is returned.  In
particular, with a nonempty argument list an initialization failure of the
notification subsystem is overwritten by the loop and never returned, and a
per-path fs.Watch registration failure is never returned, because its error
value is discarded inside the watch walk: startup proceeds with a partial
watch set. -/
theorem stalk_error_behavior (o : FsOracle) (paths : List String) :
    (Stalk o paths).2
      = (match paths with
         | [] => o.newWatcherErr
         | _ :: _ => firstAbsErr o paths) ∧
    (Stalk o paths).1.isSome = (firstAbsErr o paths).isNone :=
  stalkLoop_spec o paths initStalker o.newWatcherErr

/-- Error message returned by the failing fs.Watch oracle. -/
def watchFailMsg : Err := "watch registration failed"

/-- An oracle where the notification subsystem initializes, every raw path
resolves to an absolute single-component path, and every fs.Watch call
fails. -/
def failingWatchOracle : FsOracle :=
  ⟨none, fun s => Except.ok ⟨true, [s]⟩, fun _ => some watchFailMsg⟩

/-- C8 counterexample: under an oracle where every per-path OS-level watch
registration fails during startup, Stalk still returns a stream and no
error, and it made at least one fs.Watch call, every one of which the OS
would have failed: a per-path watch-registration failure is not fatal and
does not abort the watch set, contrary to the claim. -/
theorem stalk_ignores_watch_failure :
    (Stalk failingWatchOracle ["f"]).2 = none ∧
    (Stalk failingWatchOracle ["f"]).1.isSome = true ∧
    ((Stalk failingWatchOracle ["f"]).1.getD initStalker).watchCalls ≠ [] ∧
    ((Stalk failingWatchOracle ["f"]).1.getD initStalker).watchCalls.all
      (fun p => (failingWatchOracle.watchErr p).isSome) = true := by
  decide
